import Mathlib

set_option maxRecDepth 16000

/-!
Verification of partfinder/alignment.py: the phylip grammar, the format
parser with its header cross-checks, Alignment construction from parsed
records, phylip serialization, and column-subset projection.  Machine
strings are lists of characters; Python dicts are association lists with
unique keys in insertion order; fallible code returns Except; built-in
Python exceptions escaping the module are distinguished from the domain
AlignmentError raises.
-/

namespace Partfinder

/-- Whitespace skipped between pyparsing tokens (DEFAULT_WHITE_CHARS " \n\t"). -/
def isWs (c : Char) : Bool := c = ' ' || c = '\t' || c = '\n'

/-- Whitespace allowed inside one phylip record line
(bases.setWhitespaceChars(" \t")). -/
def isST (c : Char) : Bool := c = ' ' || c = '\t'

/-- Characters of a phylip species name, by code point: ASCII letters (65-90,
97-122), digits (48-57), and the punctuation of alignment.py's sequence_name
Word: ! # $ % & apostrophe * + - . / ; < = > ? @ [ backslash ] ^ _ backquote
braces bar tilde (33, 35-39, 42-43, 45-47, 59-64, 91-96, 123-126). -/
def isIdentChar (c : Char) : Bool :=
  let n := c.toNat
  (decide (65 ≤ n) && decide (n ≤ 90)) ||
  (decide (97 ≤ n) && decide (n ≤ 122)) ||
  (decide (48 ≤ n) && decide (n ≤ 57)) ||
  n == 33 || (decide (35 ≤ n) && decide (n ≤ 39)) || n == 42 || n == 43 ||
  (decide (45 ≤ n) && decide (n ≤ 47)) ||
  (decide (59 ≤ n) && decide (n ≤ 64)) ||
  (decide (91 ≤ n) && decide (n ≤ 96)) ||
  (decide (123 ≤ n) && decide (n ≤ 126))

/-- Residue characters: BASES = Word(alphas + "?.-"). -/
def isBaseChar (c : Char) : Bool := c.isAlpha || c = '?' || c = '.' || c = '-'

def dropWS (s : List Char) : List Char := s.dropWhile isWs

def dropST (s : List Char) : List Char := s.dropWhile isST

/-- Longest prefix of characters satisfying p, of length at most m
(the body of a pyparsing Word with a max length). -/
def takeUpTo (p : Char → Bool) : Nat → List Char → List Char
  | 0, _ => []
  | _ + 1, [] => []
  | m + 1, c :: cs => if p c then c :: takeUpTo p m cs else []

/-- pyparsing Word(chars, max=m): at least one, at most m matching characters,
taken greedily.  Leading whitespace must already have been skipped. -/
def wordMax (p : Char → Bool) (m : Nat) (s : List Char) :
    Option (List Char × List Char) :=
  let t := takeUpTo p m s
  if t.isEmpty then none else some (t, s.drop t.length)

/-- pyparsing Word(chars) with no upper bound. -/
def wordTok (p : Char → Bool) (s : List Char) : Option (List Char × List Char) :=
  let t := s.takeWhile p
  if t.isEmpty then none else some (t, s.drop t.length)

/-- Decimal value of a digit run (the int() parse action on Word(nums)). -/
def charsToNat (ds : List Char) : Nat :=
  ds.foldl (fun a c => 10 * a + (c.toNat - 48)) 0

/-- INTEGER token: skip whitespace, then a nonempty maximal digit run. -/
def pInt (s : List Char) : Option (Nat × List Char) :=
  match wordTok Char.isDigit (dropWS s) with
  | none => none
  | some (t, rest) => some (charsToNat t, rest)

/-- Phylip header: INTEGER INTEGER Suppress(restOfLine); restOfLine consumes
up to, but not including, the next newline. -/
def pHeader (s : List Char) : Option ((Nat × Nat) × List Char) :=
  match pInt s with
  | none => none
  | some (a, s1) =>
    match pInt s1 with
    | none => none
    | some (b, s2) => some ((a, b), s2.dropWhile (fun c => !(c == '\n')))

/-- The repetition in OneOrMore(bases) under whitespace " \t": keep appending
base words; on failure the position backtracks to just after the last
successful word.  The fuel argument only bounds the iteration count; each
successful word consumes at least one character, so with fuel > length of the
input the zero-fuel branch is unreachable. -/
def baseLoop : Nat → List Char → List Char → List Char × List Char
  | 0, acc, s => (acc, s)
  | f + 1, acc, s =>
    match wordTok isBaseChar (dropST s) with
    | none => (acc, s)
    | some (t, rest) => baseLoop f (acc ++ t) rest

/-- base_chain = OneOrMore(bases) with the join parse action. -/
def pBaseChain (s : List Char) : Option (List Char × List Char) :=
  match wordTok isBaseChar (dropST s) with
  | none => none
  | some (t, rest) => some (baseLoop (rest.length + 1) t rest)

/-- Suppress(LineEnd()): skip spaces and tabs, then consume a newline, or
match at the end of the input. -/
def pLineEnd (s : List Char) : Option (List Char) :=
  match dropST s with
  | [] => some []
  | c :: cs => if c == '\n' then some cs else none

/-- One phylip record: Group(sequence_name + base_chain) + Suppress(LineEnd()),
with sequence_name = Word(identChars, max=100). -/
def pSeq (s : List Char) : Option ((String × String) × List Char) :=
  match wordMax isIdentChar 100 (dropWS s) with
  | none => none
  | some (nm, s1) =>
    match pBaseChain s1 with
    | none => none
    | some (bs, s2) =>
      match pLineEnd s2 with
      | none => none
      | some s3 => some ((String.mk nm, String.mk bs), s3)

/-- The repetition in OneOrMore(seq); fuel as in baseLoop. -/
def seqsLoop : Nat → List (String × String) → List Char →
    List (String × String) × List Char
  | 0, acc, s => (acc, s)
  | f + 1, acc, s =>
    match pSeq s with
    | none => (acc, s)
    | some (r, rest) => seqsLoop f (acc ++ [r]) rest

/-- sequences = OneOrMore(seq): one record, then as many more as match. -/
def pSequences (s : List Char) :
    Option (((String × String) × List (String × String)) × List Char) :=
  match pSeq s with
  | none => none
  | some (r, rest) =>
    let (rs, rest2) := seqsLoop (rest.length + 1) [] rest
    some ((r, rs), rest2)

/-- The phylip root parser over the full text: header + sequences + stringEnd
(AlignmentParser under the module's alignment_format = 'phy'). -/
def parsePhylip (text : String) :
    Option ((Nat × Nat) × ((String × String) × List (String × String))) :=
  match pHeader text.toList with
  | none => none
  | some (hdr, s1) =>
    match pSequences s1 with
    | none => none
    | some (recs, s2) => if (dropWS s2).isEmpty then some (hdr, recs) else none

/-- Failure outcomes of the embedded operations.  The first seven correspond
to the raise AlignmentError sites, distinguished the way their log messages
distinguish them; the last three are built-in Python exceptions escaping from
the code (not AlignmentError). -/
inductive PyErr where
  | parseFailure : PyErr
  | headerCountMismatch : PyErr
  | headerLengthMismatch : PyErr
  | duplicateSpecies (spec : String) : PyErr
  | lengthMismatch (spec : String) : PyErr
  | columnOutOfRange (siteMax : Nat) (srcLen : Option Nat) : PyErr
  | emptySubset : PyErr
  | indexError : PyErr
  | valueError : PyErr
  | stopIteration : PyErr
  deriving DecidableEq

/-- Whether a failure is one of the domain AlignmentError raises, as opposed
to a built-in Python exception. -/
def PyErr.isAlignmentError : PyErr → Bool
  | .indexError => false
  | .valueError => false
  | .stopIteration => false
  | _ => true

/-- The Alignment entity.  species models the Python dict (unique keys, in
insertion order); sequence_len holds an int or Python None (the local
sequence_len of from_parser_output starts as None and is only replaced on the
first record). -/
structure Alignment where
  species : List (String × String)
  sequence_len : Option Nat
  deriving DecidableEq

/-- Python dict membership: spec in species. -/
def dictMem (m : List (String × String)) (k : String) : Bool :=
  m.any (fun kv => kv.1 == k)

/-- Python dict indexing. -/
def dictLookup : List (String × String) → String → Option String
  | [], _ => none
  | kv :: rest, k => if kv.1 == k then some kv.2 else dictLookup rest k

/-- Python dict equality: same keys mapped to the same values, independent of
iteration order. -/
def dictEq (a b : List (String × String)) : Bool :=
  a.all (fun kv => dictLookup b kv.1 == some kv.2) &&
  b.all (fun kv => dictLookup a kv.1 == some kv.2)

/-- Alignment.same_as. -/
def same_as (self other : Alignment) : Bool :=
  self.sequence_len == other.sequence_len && dictEq self.species other.species

/-- The record loop of Alignment.from_parser_output over the local species
dict and the local sequence_len: duplicate check, insertion, then the
length check against the first sequence's length. -/
def fromParserOutputLoop (species : List (String × String))
    (sequence_len : Option Nat) :
    List (String × String) → Except PyErr (List (String × String) × Option Nat)
  | [] => .ok (species, sequence_len)
  | (spec, seq) :: rest =>
    if dictMem species spec then .error (.duplicateSpecies spec)
    else
      let species2 := species ++ [(spec, seq)]
      match sequence_len with
      | none => fromParserOutputLoop species2 (some seq.length) rest
      | some L =>
        if seq.length != L then .error (.lengthMismatch spec)
        else fromParserOutputLoop species2 (some L) rest

/-- Alignment.from_parser_output viewed as a constructor: on success the
locals become the object's species and sequence_len. -/
def from_parser_output (defs : List (String × String)) : Except PyErr Alignment :=
  match fromParserOutputLoop [] none defs with
  | .error e => .error e
  | .ok (sp, sl) => .ok { species := sp, sequence_len := sl }

/-- Alignment.from_parser_output with the receiver explicit: the loop runs on
locals, and the two fields are overwritten only after it has succeeded, so the
second component is the state of the object after the call. -/
def fromParserOutputSt (self : Alignment) (defs : List (String × String)) :
    Except PyErr Unit × Alignment :=
  match fromParserOutputLoop [] none defs with
  | .error e => (.error e, self)
  | .ok (sp, sl) => (.ok (), { species := sp, sequence_len := sl })

/-- AlignmentParser.parse: run the phylip grammar, then the header
cross-checks, species count first, then the length of the first record's
sequence against the declared length. -/
def parse (text : String) : Except PyErr (List (String × String)) :=
  match parsePhylip text with
  | none => .error .parseFailure
  | some ((species_count, sequence_length), (r0, rest)) =>
    if (r0 :: rest).length != species_count then .error .headerCountMismatch
    else if r0.2.length != sequence_length then .error .headerLengthMismatch
    else .ok (r0 :: rest)

/-- Alignment.read with the file content given directly (the file system is
not modelled): parse, then from_parser_output, replacing any prior content. -/
def readText (text : String) : Except PyErr Alignment :=
  (parse text).bind from_parser_output

/-- Little-endian-to-big-endian decimal digit rendering; the fuel only bounds
the recursion depth and is never exhausted when fuel is at least n. -/
def natCharsAux : Nat → Nat → List Char
  | _, 0 => []
  | 0, _ + 1 => []
  | f + 1, n + 1 => natCharsAux f ((n + 1) / 10) ++ [Nat.digitChar ((n + 1) % 10)]

/-- Decimal rendering of a nonnegative int (Python "%d"). -/
def natToChars (n : Nat) : List Char :=
  if n = 0 then ['0'] else natCharsAux n n

/-- One output line of Alignment.write_phylip: the name truncated to 99
characters, four spaces, the sequence, a newline. -/
def phylipLine (kv : String × String) : List Char :=
  kv.1.toList.take 99 ++ ' ' :: ' ' :: ' ' :: ' ' :: (kv.2.toList ++ ['\n'])

/-- The per-species body of Alignment.write_phylip, in dict iteration order. -/
def phylipBody : List (String × String) → List Char
  | [] => []
  | kv :: rest => phylipLine kv ++ phylipBody rest

/-- Alignment.write_phylip.  The header is the species count and the length of
the first sequence in iteration order; taking next() on an empty species dict
raises StopIteration, hence the Option. -/
def write_phylip (a : Alignment) : Option (List Char) :=
  match a.species with
  | [] => none
  | (_, v0) :: _ =>
    some (natToChars a.species.length ++ ' ' ::
      (natToChars v0.length ++ '\n' :: phylipBody a.species))

/-- Write to a path, then read the same path back, under the module's fixed
alignment_format = 'phy' (the file content stands in for the path). -/
def writeReadPhylip (a : Alignment) : Except PyErr Alignment :=
  match write_phylip a with
  | none => .error .stopIteration
  | some cs => readText (String.mk cs)

/-- Python max() over a list of ints; ValueError (none) on an empty list. -/
def maxList : List Nat → Option Nat
  | [] => none
  | x :: xs => some (xs.foldl Nat.max x)

/-- The Python 2 comparison site_max > source.sequence_len, whose right side
may be None; an int always compares greater than None. -/
def pyGt (n : Nat) : Option Nat → Bool
  | none => true
  | some m => decide (m < n)

/-- The comprehension [old_sequence[i] for i in subset.columns] with the join,
indices evaluated left to right; an out-of-range index raises IndexError
(none). -/
def selectColumns (seq : List Char) : List Nat → Option (List Char)
  | [] => some []
  | i :: rest =>
    match seq[i]? with
    | none => none
    | some c =>
      match selectColumns seq rest with
      | none => none
      | some cs => some (c :: cs)

/-- The species loop of SubsetAlignment.__init__, building the new dict in
the source dict's iteration order. -/
def projectSpecies (columns : List Nat) :
    List (String × String) → Option (List (String × String))
  | [] => some []
  | kv :: rest =>
    match selectColumns kv.2.toList columns with
    | none => none
    | some nc =>
      match projectSpecies columns rest with
      | none => none
      | some out => some ((kv.1, String.mk nc) :: out)

/-- SubsetAlignment.__init__(source, subset): the outcome for the object under
construction, paired with the source object after the call.  Base-class init,
the max-based bounds check, the column pull, the empty check, then
sequence_len from the first new sequence. -/
def subsetAlignmentInit (source : Alignment) (columns : List Nat) :
    Except PyErr Alignment × Alignment :=
  match maxList columns with
  | none => (.error .valueError, source)
  | some site_max =>
    if pyGt site_max source.sequence_len then
      (.error (.columnOutOfRange site_max source.sequence_len), source)
    else
      match projectSpecies columns source.species with
      | none => (.error .indexError, source)
      | some sp =>
        match sp with
        | [] => (.error .emptySubset, source)
        | (_, w0) :: _ =>
          (.ok { species := sp, sequence_len := some w0.length }, source)

/-- Column projection as a constructor. -/
def project (source : Alignment) (columns : List Nat) : Except PyErr Alignment :=
  (subsetAlignmentInit source columns).1

/-- The entity invariants: unique species identifiers, non-empty species dict,
and every sequence of length exactly sequence_len. -/
def invariantsHold (a : Alignment) : Prop :=
  (a.species.map Prod.fst).Nodup ∧ a.species ≠ [] ∧
  ∃ L, a.sequence_len = some L ∧ ∀ kv ∈ a.species, kv.2.length = L

/-- The record-list constraints under which a species dict serializes to
records the grammar reads back verbatim. -/
def goodRecord (kv : String × String) : Prop :=
  kv.1.toList ≠ [] ∧ kv.1.toList.length ≤ 99 ∧
  (∀ c ∈ kv.1.toList, isIdentChar c = true) ∧ kv.2.toList ≠ [] ∧
  (∀ c ∈ kv.2.toList, isBaseChar c = true)

instance (kv : String × String) : Decidable (goodRecord kv) := by
  unfold goodRecord
  infer_instance

/-- The spec's running example: dog GATTACA, cat GATCACA, length 7. -/
def dogcat7 : Alignment :=
  { species := [("dog", "GATTACA"), ("cat", "GATCACA")], sequence_len := some 7 }

/-- A 100-character species name, which the phylip grammar itself can produce
(sequence_name is Word(..., max=100)). -/
def longName100 : String := String.mk (List.replicate 100 'a')

/-- The same name after write_phylip's truncation to 99 characters. -/
def longName99 : String := String.mk (List.replicate 99 'a')

/-- A valid alignment whose only species name has 100 characters. -/
def aln100 : Alignment := { species := [(longName100, "G")], sequence_len := some 1 }

/-- The alignment that reading back the serialization of aln100 produces. -/
def aln99 : Alignment := { species := [(longName99, "G")], sequence_len := some 1 }

theorem ws_elim {c : Char} (h : isWs c = true) : c = ' ' ∨ c = '\t' ∨ c = '\n' := by
  simpa [isWs, or_assoc] using h

theorem st_elim {c : Char} (h : isST c = true) : c = ' ' ∨ c = '\t' := by
  simpa [isST] using h

theorem ident_not_ws {c : Char} (h : isIdentChar c = true) : isWs c = false := by
  cases hw : isWs c
  · rfl
  · rcases ws_elim hw with rfl | rfl | rfl <;> exact absurd h (by decide)

theorem digit_not_ws {c : Char} (h : c.isDigit = true) : isWs c = false := by
  cases hw : isWs c
  · rfl
  · rcases ws_elim hw with rfl | rfl | rfl <;> exact absurd h (by decide)

theorem base_not_st {c : Char} (h : isBaseChar c = true) : isST c = false := by
  cases hs : isST c
  · rfl
  · rcases st_elim hs with rfl | rfl <;> exact absurd h (by decide)

theorem dropWS_cons_of_not {c : Char} {s : List Char} (h : isWs c = false) :
    dropWS (c :: s) = c :: s := by
  show List.dropWhile isWs (c :: s) = c :: s
  rw [List.dropWhile_cons, if_neg (by simp [h])]

theorem dropWS_cons_ws {c : Char} {s : List Char} (h : isWs c = true) :
    dropWS (c :: s) = dropWS s := by
  show List.dropWhile isWs (c :: s) = List.dropWhile isWs s
  rw [List.dropWhile_cons, if_pos h]

theorem dropST_cons_of_not {c : Char} {s : List Char} (h : isST c = false) :
    dropST (c :: s) = c :: s := by
  show List.dropWhile isST (c :: s) = c :: s
  rw [List.dropWhile_cons, if_neg (by simp [h])]

theorem dropST_cons_st {c : Char} {s : List Char} (h : isST c = true) :
    dropST (c :: s) = dropST s := by
  show List.dropWhile isST (c :: s) = List.dropWhile isST s
  rw [List.dropWhile_cons, if_pos h]

theorem takeUpTo_nil (p : Char → Bool) (m : Nat) : takeUpTo p m [] = [] := by
  cases m <;> rfl

theorem takeUpTo_append (p : Char → Bool) :
    ∀ (xs : List Char) (m : Nat) (y : Char) (ys : List Char),
      (∀ x ∈ xs, p x = true) → xs.length ≤ m → p y = false →
      takeUpTo p m (xs ++ y :: ys) = xs := by
  intro xs
  induction xs with
  | nil =>
    intro m y ys _ _ hy
    cases m with
    | zero => rfl
    | succ m => simp [takeUpTo, hy]
  | cons a as ih =>
    intro m y ys hall hlen hy
    cases m with
    | zero => simp at hlen
    | succ m =>
      have hstep := ih m y ys (fun x hx => hall x (by simp [hx]))
        (by simpa using hlen) hy
      simp only [List.cons_append, takeUpTo, hall a (by simp), if_true,
        List.append_eq, hstep]

theorem wordMax_exact (p : Char → Bool) (m : Nat) (xs : List Char) (y : Char)
    (ys : List Char) (hxs : ∀ x ∈ xs, p x = true) (hne : xs ≠ [])
    (hlen : xs.length ≤ m) (hy : p y = false) :
    wordMax p m (xs ++ y :: ys) = some (xs, y :: ys) := by
  unfold wordMax
  rw [takeUpTo_append p xs m y ys hxs hlen hy]
  simp only [List.isEmpty_iff, hne, if_false, List.drop_left]

theorem takeWhile_run (p : Char → Bool) :
    ∀ (xs : List Char) (y : Char) (ys : List Char),
      (∀ x ∈ xs, p x = true) → p y = false →
      (xs ++ y :: ys).takeWhile p = xs := by
  intro xs
  induction xs with
  | nil => intro y ys _ hy; simp [List.takeWhile_cons, hy]
  | cons a as ih =>
    intro y ys hall hy
    simp only [List.cons_append, List.takeWhile_cons, hall a (by simp), if_true]
    rw [ih y ys (fun x hx => hall x (by simp [hx])) hy]

theorem wordTok_exact (p : Char → Bool) (xs : List Char) (y : Char)
    (ys : List Char) (hxs : ∀ x ∈ xs, p x = true) (hne : xs ≠ [])
    (hy : p y = false) :
    wordTok p (xs ++ y :: ys) = some (xs, y :: ys) := by
  unfold wordTok
  rw [takeWhile_run p xs y ys hxs hy]
  simp only [List.isEmpty_iff, hne, if_false, List.drop_left]

theorem wordTok_nil (p : Char → Bool) : wordTok p [] = none := rfl

theorem wordTok_head_false (p : Char → Bool) {c : Char} {s : List Char}
    (h : p c = false) : wordTok p (c :: s) = none := by
  simp [wordTok, List.takeWhile_cons, h]

theorem wordTok_all (p : Char → Bool) (xs : List Char)
    (hxs : ∀ x ∈ xs, p x = true) (hne : xs ≠ []) :
    wordTok p xs = some (xs, []) := by
  have h1 : xs.takeWhile p = xs := List.takeWhile_eq_self_iff.mpr hxs
  unfold wordTok
  rw [h1]
  simp [List.isEmpty_iff, hne]

theorem digitChar_val {d : Nat} (h : d < 10) : (Nat.digitChar d).toNat - 48 = d := by
  interval_cases d <;> rfl

theorem digitChar_isDigit {d : Nat} (h : d < 10) :
    (Nat.digitChar d).isDigit = true := by
  interval_cases d <;> rfl

theorem natCharsAux_foldl :
    ∀ (fuel n a : Nat), n ≤ fuel →
      List.foldl (fun a c => 10 * a + (c.toNat - 48)) a (natCharsAux fuel n) =
        a * 10 ^ (natCharsAux fuel n).length + n := by
  intro fuel
  induction fuel with
  | zero =>
    intro n a hn
    interval_cases n
    simp [natCharsAux]
  | succ f ih =>
    intro n a hn
    match n with
    | 0 => simp [natCharsAux]
    | k + 1 =>
      have hq : (k + 1) / 10 ≤ f := by
        have h1 : (k + 1) / 10 < k + 1 := Nat.div_lt_self (Nat.succ_pos k) (by omega)
        omega
      have hrec := ih ((k + 1) / 10) a hq
      have hmod : (k + 1) % 10 < 10 := Nat.mod_lt _ (by omega)
      rw [show natCharsAux (f + 1) (k + 1) =
            natCharsAux f ((k + 1) / 10) ++ [Nat.digitChar ((k + 1) % 10)] from rfl,
        List.foldl_append, hrec]
      simp only [List.foldl_cons, List.foldl_nil, List.length_append,
        List.length_cons, List.length_nil, digitChar_val hmod]
      have hdm : 10 * ((k + 1) / 10) + (k + 1) % 10 = k + 1 := Nat.div_add_mod _ 10
      calc 10 * (a * 10 ^ (natCharsAux f ((k + 1) / 10)).length + (k + 1) / 10) +
            (k + 1) % 10
          = a * (10 ^ (natCharsAux f ((k + 1) / 10)).length * 10) +
            (10 * ((k + 1) / 10) + (k + 1) % 10) := by ring
        _ = a * 10 ^ ((natCharsAux f ((k + 1) / 10)).length + 0 + 1) + (k + 1) := by
            rw [hdm, pow_succ]

theorem charsToNat_natToChars (n : Nat) : charsToNat (natToChars n) = n := by
  unfold natToChars
  split
  · simp_all [charsToNat]
  · have := natCharsAux_foldl n n 0 (le_refl n)
    simpa [charsToNat] using this

theorem natCharsAux_isDigit :
    ∀ (fuel n : Nat), ∀ c ∈ natCharsAux fuel n, c.isDigit = true := by
  intro fuel
  induction fuel with
  | zero =>
    intro n c hc
    match n with
    | 0 => simp [natCharsAux] at hc
    | k + 1 => simp [natCharsAux] at hc
  | succ f ih =>
    intro n c hc
    match n with
    | 0 => simp [natCharsAux] at hc
    | k + 1 =>
      rw [show natCharsAux (f + 1) (k + 1) =
            natCharsAux f ((k + 1) / 10) ++ [Nat.digitChar ((k + 1) % 10)] from rfl]
        at hc
      rcases List.mem_append.mp hc with hc | hc
      · exact ih _ c hc
      · have hmod : (k + 1) % 10 < 10 := Nat.mod_lt _ (by omega)
        simp only [List.mem_singleton] at hc
        rw [hc]
        exact digitChar_isDigit hmod

theorem natToChars_isDigit (n : Nat) : ∀ c ∈ natToChars n, c.isDigit = true := by
  unfold natToChars
  split
  · intro c hc
    simp only [List.mem_singleton] at hc
    rw [hc]
    rfl
  · exact natCharsAux_isDigit n n

theorem natToChars_ne_nil (n : Nat) : natToChars n ≠ [] := by
  unfold natToChars
  split
  · simp
  · match n, (by omega : n ≠ 0) with
    | k + 1, _ => simp [show natCharsAux (k + 1) (k + 1) =
        natCharsAux k ((k + 1) / 10) ++ [Nat.digitChar ((k + 1) % 10)] from rfl]

theorem dictMem_false_iff {m : List (String × String)} {k : String} :
    dictMem m k = false ↔ k ∉ m.map Prod.fst := by
  rw [← Bool.not_eq_true]
  simp only [dictMem, List.any_eq_true, beq_iff_eq, List.mem_map, not_exists]

theorem dictMem_true_iff {m : List (String × String)} {k : String} :
    dictMem m k = true ↔ k ∈ m.map Prod.fst := by
  constructor
  · intro h
    by_contra hn
    rw [← dictMem_false_iff] at hn
    rw [h] at hn
    exact absurd hn (by simp)
  · intro h
    by_contra hn
    rw [Bool.not_eq_true] at hn
    exact (dictMem_false_iff.mp hn) h

theorem dictMem_append {m : List (String × String)} {x : String × String}
    {k : String} :
    dictMem (m ++ [x]) k = (dictMem m k || (x.1 == k)) := by
  simp [dictMem, List.any_append]

theorem dictLookup_mem {m : List (String × String)}
    (hnd : (m.map Prod.fst).Nodup) :
    ∀ kv ∈ m, dictLookup m kv.1 = some kv.2 := by
  induction m with
  | nil => intro kv hkv; simp at hkv
  | cons x rest ih =>
    intro kv hkv
    rw [List.map_cons, List.nodup_cons] at hnd
    rcases List.mem_cons.mp hkv with hkv | hkv
    · rw [hkv]
      simp [dictLookup]
    · have hne : x.1 ≠ kv.1 := by
        intro he
        exact hnd.1 (he ▸ List.mem_map.mpr ⟨kv, hkv, rfl⟩)
      simp only [dictLookup, beq_iff_eq, hne, if_false]
      exact ih hnd.2 kv hkv

theorem dictEq_refl {m : List (String × String)}
    (hnd : (m.map Prod.fst).Nodup) : dictEq m m = true := by
  simp only [dictEq, Bool.and_eq_true, List.all_eq_true]
  refine ⟨?_, ?_⟩ <;>
    exact fun kv hkv => by rw [dictLookup_mem hnd kv hkv]; simp

theorem same_as_self {a : Alignment} (hnd : (a.species.map Prod.fst).Nodup) :
    same_as a a = true := by
  simp [same_as, dictEq_refl hnd]

theorem fromLoop_ok :
    ∀ (defs acc : List (String × String)) (L : Nat),
      (∀ kv ∈ defs, dictMem acc kv.1 = false) →
      (defs.map Prod.fst).Nodup →
      (∀ kv ∈ defs, kv.2.length = L) →
      fromParserOutputLoop acc (some L) defs = .ok (acc ++ defs, some L) := by
  intro defs
  induction defs with
  | nil => intro acc L _ _ _; simp [fromParserOutputLoop]
  | cons kv rest ih =>
    intro acc L hdisj hnd hlen
    obtain ⟨k, v⟩ := kv
    have hmem : dictMem acc k = false := hdisj (k, v) (by simp)
    have hvlen : v.length = L := hlen (k, v) (by simp)
    rw [List.map_cons, List.nodup_cons] at hnd
    have hdisj2 : ∀ kv ∈ rest, dictMem (acc ++ [(k, v)]) kv.1 = false := by
      intro kv hkv
      rw [dictMem_append, hdisj kv (by simp [hkv]), Bool.false_or]
      have : k ≠ kv.1 := fun he => hnd.1 (he ▸ List.mem_map.mpr ⟨kv, hkv, rfl⟩)
      simpa using this
    have hrec := ih (acc ++ [(k, v)]) L hdisj2 hnd.2
      (fun kv hkv => hlen kv (by simp [hkv]))
    simp only [fromParserOutputLoop, hmem, Bool.false_eq_true, if_false, hvlen,
      bne_self_eq_false, hrec, List.append_assoc, List.singleton_append]

theorem from_parser_output_ok (k0 v0 : String) (rest : List (String × String))
    (hnd : (((k0, v0) :: rest).map Prod.fst).Nodup)
    (hlen : ∀ kv ∈ rest, kv.2.length = v0.length) :
    from_parser_output ((k0, v0) :: rest) =
      .ok { species := (k0, v0) :: rest, sequence_len := some v0.length } := by
  rw [List.map_cons, List.nodup_cons] at hnd
  have hdisj : ∀ kv ∈ rest, dictMem [(k0, v0)] kv.1 = false := by
    intro kv hkv
    have : k0 ≠ kv.1 := fun he => hnd.1 (he ▸ List.mem_map.mpr ⟨kv, hkv, rfl⟩)
    simpa [dictMem] using this
  have hrec := fromLoop_ok rest [(k0, v0)] v0.length hdisj hnd.2 hlen
  unfold from_parser_output
  simp only [fromParserOutputLoop, dictMem, List.any_nil, Bool.false_eq_true,
    if_false, List.nil_append, hrec, List.singleton_append]

theorem fromLoop_err_of_dup :
    ∀ (defs acc : List (String × String)) (slen : Option Nat),
      (acc.map Prod.fst).Nodup →
      ¬ (acc.map Prod.fst ++ defs.map Prod.fst).Nodup →
      ∃ e, fromParserOutputLoop acc slen defs = .error e ∧
        ∃ s, e = .duplicateSpecies s ∨ e = .lengthMismatch s := by
  intro defs
  induction defs with
  | nil =>
    intro acc slen hacc hdup
    rw [List.map_nil, List.append_nil] at hdup
    exact absurd hacc hdup
  | cons kv rest ih =>
    intro acc slen hacc hdup
    obtain ⟨k, v⟩ := kv
    cases hm : dictMem acc k with
    | true =>
      exact ⟨.duplicateSpecies k, by simp [fromParserOutputLoop, hm],
        k, Or.inl rfl⟩
    | false =>
      have hacc2 : ((acc ++ [(k, v)]).map Prod.fst).Nodup := by
        rw [List.map_append, List.map_singleton, List.nodup_append]
        refine ⟨hacc, List.nodup_singleton k, ?_⟩
        intro x hx hk
        rw [List.mem_singleton] at hk
        subst hk
        exact absurd hx (dictMem_false_iff.mp hm)
      have hdup2 : ¬ (((acc ++ [(k, v)]).map Prod.fst) ++ rest.map Prod.fst).Nodup := by
        rw [List.map_append, List.map_singleton, List.append_assoc,
          List.singleton_append]
        simpa using hdup
      cases slen with
      | none =>
        rcases ih (acc ++ [(k, v)]) (some v.length) hacc2 hdup2 with ⟨e, he, s, hs⟩
        exact ⟨e, by simp [fromParserOutputLoop, hm, he], s, hs⟩
      | some L =>
        cases hlen : (v.length != L) with
        | true =>
          exact ⟨.lengthMismatch k, by simp [fromParserOutputLoop, hm, hlen],
            k, Or.inr rfl⟩
        | false =>
          rcases ih (acc ++ [(k, v)]) (some L) hacc2 hdup2 with ⟨e, he, s, hs⟩
          exact ⟨e, by simp [fromParserOutputLoop, hm, hlen, he], s, hs⟩

theorem fromLoop_dup_at :
    ∀ (mid acc : List (String × String)) (L : Nat) (kd vd : String)
      (post : List (String × String)),
      (∀ kv ∈ mid, kv.2.length = L) →
      (∀ kv ∈ mid, dictMem acc kv.1 = false) →
      (mid.map Prod.fst).Nodup →
      dictMem (acc ++ mid) kd = true →
      fromParserOutputLoop acc (some L) (mid ++ (kd, vd) :: post) =
        .error (.duplicateSpecies kd) := by
  intro mid
  induction mid with
  | nil =>
    intro acc L kd vd post _ _ _ hmem
    rw [List.append_nil] at hmem
    simp [fromParserOutputLoop, hmem]
  | cons kv mid ih =>
    intro acc L kd vd post hlen hdisj hnd hmem
    obtain ⟨k, v⟩ := kv
    have hm : dictMem acc k = false := hdisj (k, v) (by simp)
    have hvlen : v.length = L := hlen (k, v) (by simp)
    rw [List.map_cons, List.nodup_cons] at hnd
    have hdisj2 : ∀ kv ∈ mid, dictMem (acc ++ [(k, v)]) kv.1 = false := by
      intro kv hkv
      rw [dictMem_append, hdisj kv (by simp [hkv]), Bool.false_or]
      have : k ≠ kv.1 := fun he => hnd.1 (he ▸ List.mem_map.mpr ⟨kv, hkv, rfl⟩)
      simpa using this
    have hmem2 : dictMem ((acc ++ [(k, v)]) ++ mid) kd = true := by
      rw [List.append_assoc, List.singleton_append]
      exact hmem
    have hrec := ih (acc ++ [(k, v)]) L kd vd post
      (fun kv hkv => hlen kv (by simp [hkv])) hdisj2 hnd.2 hmem2
    simp only [List.cons_append, List.append_eq, fromParserOutputLoop, hm,
      Bool.false_eq_true, if_false, hvlen, bne_self_eq_false, hrec]

theorem fromLoop_first_mismatch :
    ∀ (pre acc : List (String × String)) (L : Nat) (kb sb : String)
      (post : List (String × String)),
      (∀ kv ∈ pre, kv.2.length = L) → sb.length ≠ L →
      (∀ kv ∈ pre, dictMem acc kv.1 = false) →
      dictMem acc kb = false →
      (∀ kv ∈ pre, kv.1 ≠ kb) →
      (pre.map Prod.fst).Nodup →
      fromParserOutputLoop acc (some L) (pre ++ (kb, sb) :: post) =
        .error (.lengthMismatch kb) := by
  intro pre
  induction pre with
  | nil =>
    intro acc L kb sb post _ hsb hdisj hkb _ _
    have : (sb.length != L) = true := by simpa using hsb
    simp [fromParserOutputLoop, hkb, this]
  | cons kv pre ih =>
    intro acc L kb sb post hlen hsb hdisj hkb hne hnd
    obtain ⟨k, v⟩ := kv
    have hm : dictMem acc k = false := hdisj (k, v) (by simp)
    have hvlen : v.length = L := hlen (k, v) (by simp)
    rw [List.map_cons, List.nodup_cons] at hnd
    have hdisj2 : ∀ kv ∈ pre, dictMem (acc ++ [(k, v)]) kv.1 = false := by
      intro kv hkv
      rw [dictMem_append, hdisj kv (by simp [hkv]), Bool.false_or]
      have : k ≠ kv.1 := fun he => hnd.1 (he ▸ List.mem_map.mpr ⟨kv, hkv, rfl⟩)
      simpa using this
    have hkb2 : dictMem (acc ++ [(k, v)]) kb = false := by
      rw [dictMem_append, hkb, Bool.false_or]
      simpa using hne (k, v) (by simp)
    have hrec := ih (acc ++ [(k, v)]) L kb sb post
      (fun kv hkv => hlen kv (by simp [hkv])) hsb hdisj2 hkb2
      (fun kv hkv => hne kv (by simp [hkv])) hnd.2
    simp only [List.cons_append, List.append_eq, fromParserOutputLoop, hm,
      Bool.false_eq_true, if_false, hvlen, bne_self_eq_false, hrec]

theorem fromLoop_ok_inv :
    ∀ (defs acc : List (String × String)) (slen : Option Nat)
      (sp : List (String × String)) (sl : Option Nat),
      fromParserOutputLoop acc slen defs = .ok (sp, sl) →
      sp = acc ++ defs ∧
      ((acc.map Prod.fst).Nodup → (sp.map Prod.fst).Nodup) ∧
      (∀ L, slen = some L → (∀ kv ∈ acc, kv.2.length = L) →
        sl = some L ∧ ∀ kv ∈ sp, kv.2.length = L) := by
  intro defs
  induction defs with
  | nil =>
    intro acc slen sp sl h
    simp only [fromParserOutputLoop, Except.ok.injEq, Prod.mk.injEq] at h
    refine ⟨by simp [← h.1], fun hacc => h.1 ▸ hacc, ?_⟩
    intro L hL hacc
    exact ⟨h.2 ▸ hL, fun kv hkv => hacc kv (h.1 ▸ hkv)⟩
  | cons kv rest ih =>
    intro acc slen sp sl h
    obtain ⟨k, v⟩ := kv
    cases hm : dictMem acc k with
    | true => simp [fromParserOutputLoop, hm] at h
    | false =>
      have hknotin : k ∉ acc.map Prod.fst := dictMem_false_iff.mp hm
      have hacc2 : (acc.map Prod.fst).Nodup →
          (((acc ++ [(k, v)]).map Prod.fst)).Nodup := by
        intro hacc
        rw [List.map_append, List.map_singleton, List.nodup_append]
        refine ⟨hacc, List.nodup_singleton k, ?_⟩
        intro x hx hk
        rw [List.mem_singleton] at hk
        subst hk
        exact absurd hx hknotin
      cases slen with
      | none =>
        rw [show fromParserOutputLoop acc none ((k, v) :: rest) =
              fromParserOutputLoop (acc ++ [(k, v)]) (some v.length) rest by
            simp [fromParserOutputLoop, hm]] at h
        rcases ih (acc ++ [(k, v)]) (some v.length) sp sl h with ⟨h1, h2, _⟩
        refine ⟨by simp [h1], fun hacc => h2 (hacc2 hacc), ?_⟩
        intro L hL
        exact absurd hL (by simp)
      | some L =>
        cases hlen : (v.length != L) with
        | true => simp [fromParserOutputLoop, hm, hlen] at h
        | false =>
          have hvlen : v.length = L := by simpa using hlen
          rw [show fromParserOutputLoop acc (some L) ((k, v) :: rest) =
                fromParserOutputLoop (acc ++ [(k, v)]) (some L) rest by
              simp [fromParserOutputLoop, hm, hlen]] at h
          rcases ih (acc ++ [(k, v)]) (some L) sp sl h with ⟨h1, h2, h3⟩
          refine ⟨by simp [h1], fun hacc => h2 (hacc2 hacc), ?_⟩
          intro L2 hL2 haccL
          have hL2L : L2 = L := (Option.some.inj hL2).symm
          subst hL2L
          refine h3 L2 rfl ?_
          intro kv hkv
          rcases List.mem_append.mp hkv with hkv | hkv
          · exact haccL kv hkv
          · rw [List.mem_singleton] at hkv
            rw [hkv]
            exact hvlen

theorem foldl_max_lt :
    ∀ (xs : List Nat) (x B : Nat), x < B → (∀ i ∈ xs, i < B) →
      xs.foldl Nat.max x < B := by
  intro xs
  induction xs with
  | nil => intro x B hx _; simpa using hx
  | cons a l ih =>
    intro x B hx hall
    simp only [List.foldl_cons]
    exact ih (Nat.max x a) B (Nat.max_lt.mpr ⟨hx, hall a (by simp)⟩)
      (fun i hi => hall i (by simp [hi]))

theorem selectColumns_in_range (seq : List Char) :
    ∀ (columns : List Nat), (∀ i ∈ columns, i < seq.length) →
      selectColumns seq columns =
        some (columns.map (fun i => seq.getD i ' ')) := by
  intro columns
  induction columns with
  | nil => intro _; rfl
  | cons i rest ih =>
    intro hall
    have hi : i < seq.length := hall i (by simp)
    rw [selectColumns, List.getElem?_eq_getElem hi,
      ih (fun j hj => hall j (by simp [hj]))]
    simp [List.getElem?_eq_getElem hi]

theorem selectColumns_length (seq : List Char) :
    ∀ (columns : List Nat) (out : List Char),
      selectColumns seq columns = some out → out.length = columns.length := by
  intro columns
  induction columns with
  | nil =>
    intro out h
    simp only [selectColumns, Option.some.injEq] at h
    simp [← h]
  | cons i rest ih =>
    intro out h
    rw [selectColumns] at h
    cases hi : seq[i]? with
    | none => rw [hi] at h; exact absurd h (by simp)
    | some c =>
      rw [hi] at h
      cases hr : selectColumns seq rest with
      | none => rw [hr] at h; exact absurd h (by simp)
      | some cs =>
        rw [hr] at h
        simp only [Option.some.injEq] at h
        rw [← h]
        simp [ih cs hr]

theorem projectSpecies_ok (columns : List Nat) :
    ∀ (sp out : List (String × String)),
      projectSpecies columns sp = some out →
      out.map Prod.fst = sp.map Prod.fst ∧
      ∀ kv ∈ out, kv.2.length = columns.length := by
  intro sp
  induction sp with
  | nil =>
    intro out h
    simp only [projectSpecies, Option.some.injEq] at h
    simp [← h]
  | cons kv rest ih =>
    intro out h
    rw [projectSpecies] at h
    cases hs : selectColumns kv.2.toList columns with
    | none => rw [hs] at h; exact absurd h (by simp)
    | some nc =>
      rw [hs] at h
      cases hr : projectSpecies columns rest with
      | none => rw [hr] at h; exact absurd h (by simp)
      | some out2 =>
        rw [hr] at h
        simp only [Option.some.injEq] at h
        rcases ih out2 hr with ⟨ih1, ih2⟩
        constructor
        · rw [← h]
          simp [ih1]
        · intro kv2 hkv2
          rw [← h] at hkv2
          rcases List.mem_cons.mp hkv2 with hkv2 | hkv2
          · rw [hkv2]
            show (String.mk nc).length = columns.length
            have : (String.mk nc).length = nc.length := rfl
            rw [this, selectColumns_length kv.2.toList columns nc hs]
          · exact ih2 kv2 hkv2

theorem string_toList_length (s : String) : s.toList.length = s.length := rfl

theorem projectSpecies_in_range (columns : List Nat) (L : Nat)
    (hcols : ∀ i ∈ columns, i < L) :
    ∀ (sp : List (String × String)), (∀ kv ∈ sp, kv.2.length = L) →
      projectSpecies columns sp =
        some (sp.map (fun kv =>
          (kv.1, String.mk (columns.map (fun i => kv.2.toList.getD i ' '))))) := by
  intro sp
  induction sp with
  | nil => intro _; rfl
  | cons kv rest ih =>
    intro hall
    have hklen : kv.2.length = L := hall kv (by simp)
    have hsel := selectColumns_in_range kv.2.toList columns
      (fun i hi => by rw [string_toList_length, hklen]; exact hcols i hi)
    rw [projectSpecies, hsel, ih (fun kv2 hkv2 => hall kv2 (by simp [hkv2]))]
    simp

theorem project_ok_inv {source : Alignment} {columns : List Nat} {al : Alignment}
    (hnd : (source.species.map Prod.fst).Nodup)
    (h : project source columns = .ok al) : invariantsHold al := by
  unfold project subsetAlignmentInit at h
  cases hm : maxList columns with
  | none =>
    simp only [hm] at h
    exact absurd h (by simp)
  | some m =>
    cases hp : pyGt m source.sequence_len with
    | true =>
      simp only [hm, hp, if_true] at h
      exact absurd h (by simp)
    | false =>
      simp only [hm, hp, Bool.false_eq_true, if_false] at h
      cases hpr : projectSpecies columns source.species with
      | none =>
        simp only [hpr] at h
        exact absurd h (by simp)
      | some sp =>
        simp only [hpr] at h
        rcases projectSpecies_ok columns source.species sp hpr with ⟨hkeys, hlens⟩
        cases sp with
        | nil => exact absurd h (by simp)
        | cons kw rest =>
          obtain ⟨k0, w0⟩ := kw
          simp only [Except.ok.injEq] at h
          have hw0 : w0.length = columns.length :=
            hlens (k0, w0) (by simp)
          refine ⟨?_, ?_, ?_⟩
          · rw [← h, hkeys]
            exact hnd
          · rw [← h]
            simp
          · refine ⟨columns.length, ?_, ?_⟩
            · rw [← h]
              show some w0.length = some columns.length
              rw [hw0]
            · intro kv hkv
              rw [← h] at hkv
              exact hlens kv hkv

theorem pSeq_nil : pSeq [] = none := rfl

theorem pSeq_cons_nl (s : List Char) : pSeq ('\n' :: s) = pSeq s := by
  unfold pSeq
  rw [dropWS_cons_ws (by decide)]

theorem pSeq_phylipLine (k v : String) (R : List Char)
    (hk1 : k.toList ≠ []) (hk2 : k.toList.length ≤ 99)
    (hk3 : ∀ c ∈ k.toList, isIdentChar c = true)
    (hv1 : v.toList ≠ []) (hv2 : ∀ c ∈ v.toList, isBaseChar c = true) :
    pSeq (phylipLine (k, v) ++ R) = some ((k, v), R) := by
  have hline : phylipLine (k, v) ++ R =
      k.toList ++ ' ' :: ' ' :: ' ' :: ' ' :: (v.toList ++ '\n' :: R) := by
    show (k.toList.take 99 ++ ' ' :: ' ' :: ' ' :: ' ' :: (v.toList ++ ['\n'])) ++ R = _
    rw [List.take_of_length_le hk2]
    simp
  have hdrop : dropWS (k.toList ++ ' ' :: ' ' :: ' ' :: ' ' :: (v.toList ++ '\n' :: R)) =
      k.toList ++ ' ' :: ' ' :: ' ' :: ' ' :: (v.toList ++ '\n' :: R) := by
    cases hkl : k.toList with
    | nil => exact absurd hkl hk1
    | cons kc krest =>
      rw [List.cons_append]
      exact dropWS_cons_of_not (ident_not_ws (hk3 kc (by rw [hkl]; simp)))
  have hword := wordMax_exact isIdentChar 100 k.toList ' '
    (' ' :: ' ' :: ' ' :: (v.toList ++ '\n' :: R)) hk3 hk1 (by omega) (by decide)
  have hdst : dropST (' ' :: ' ' :: ' ' :: ' ' :: (v.toList ++ '\n' :: R)) =
      v.toList ++ '\n' :: R := by
    rw [dropST_cons_st (by decide), dropST_cons_st (by decide),
      dropST_cons_st (by decide), dropST_cons_st (by decide)]
    cases hvl : v.toList with
    | nil => exact absurd hvl hv1
    | cons vc vrest =>
      rw [List.cons_append]
      exact dropST_cons_of_not (base_not_st (hv2 vc (by rw [hvl]; simp)))
  have hbases := wordTok_exact isBaseChar v.toList '\n' R hv2 hv1 (by decide)
  have hdnl : dropST ('\n' :: R) = '\n' :: R := dropST_cons_of_not (by decide)
  have hloop : baseLoop (('\n' :: R).length + 1) v.toList ('\n' :: R) =
      (v.toList, '\n' :: R) := by
    rw [show ('\n' :: R).length + 1 = (R.length + 1) + 1 by simp]
    simp only [baseLoop, hdnl, wordTok_head_false isBaseChar
      (show isBaseChar '\n' = false by decide)]
  have hchain : pBaseChain (' ' :: ' ' :: ' ' :: ' ' :: (v.toList ++ '\n' :: R)) =
      some (v.toList, '\n' :: R) := by
    unfold pBaseChain
    rw [hdst, hbases]
    simp only [hloop]
  have hle : pLineEnd ('\n' :: R) = some R := by
    unfold pLineEnd
    rw [hdnl]
    rfl
  rw [hline]
  unfold pSeq
  rw [hdrop]
  simp only [hword, hchain, hle]
  rfl

theorem phylipLine_len_pos (kv : String × String) : 1 ≤ (phylipLine kv).length := by
  simp [phylipLine]
  omega

theorem seqsLoop_phylipBody :
    ∀ (sp : List (String × String)) (fuel : Nat) (acc : List (String × String)),
      (phylipBody sp).length ≤ fuel →
      (∀ kv ∈ sp, goodRecord kv) →
      seqsLoop fuel acc (phylipBody sp) = (acc ++ sp, []) := by
  intro sp
  induction sp with
  | nil =>
    intro fuel acc _ _
    cases fuel with
    | zero => simp [phylipBody, seqsLoop]
    | succ f => simp [phylipBody, seqsLoop, pSeq_nil]
  | cons kv rest ih =>
    intro fuel acc hfuel hall
    obtain ⟨k, v⟩ := kv
    obtain ⟨g1, g2, g3, g4, g5⟩ := hall (k, v) (by simp)
    have hbody : phylipBody ((k, v) :: rest) = phylipLine (k, v) ++ phylipBody rest := rfl
    cases fuel with
    | zero =>
      exfalso
      rw [hbody, List.length_append] at hfuel
      have := phylipLine_len_pos (k, v)
      omega
    | succ f =>
      have hps := pSeq_phylipLine k v (phylipBody rest) g1 g2 g3 g4 g5
      rw [hbody]
      simp only [seqsLoop, hps]
      rw [ih f (acc ++ [(k, v)])
        (by rw [hbody, List.length_append] at hfuel
            have := phylipLine_len_pos (k, v)
            omega)
        (fun kv hkv2 => hall kv (by simp [hkv2]))]
      simp

theorem dropWS_natToChars (n : Nat) (t : List Char) :
    dropWS (natToChars n ++ t) = natToChars n ++ t := by
  cases hn : natToChars n with
  | nil => exact absurd hn (natToChars_ne_nil n)
  | cons c cs =>
    rw [List.cons_append]
    exact dropWS_cons_of_not (digit_not_ws (natToChars_isDigit n c (by rw [hn]; simp)))

theorem pInt_render {s : List Char} (n : Nat) (y : Char) (ys : List Char)
    (hy : y.isDigit = false)
    (hs : dropWS s = natToChars n ++ y :: ys) :
    pInt s = some (n, y :: ys) := by
  unfold pInt
  rw [hs, wordTok_exact Char.isDigit (natToChars n) y ys (natToChars_isDigit n)
    (natToChars_ne_nil n) hy]
  simp [charsToNat_natToChars]

theorem pHeader_render (N L : Nat) (body : List Char) :
    pHeader (natToChars N ++ ' ' :: (natToChars L ++ '\n' :: body)) =
      some ((N, L), '\n' :: body) := by
  have h1 : pInt (natToChars N ++ ' ' :: (natToChars L ++ '\n' :: body)) =
      some (N, ' ' :: (natToChars L ++ '\n' :: body)) :=
    pInt_render N ' ' _ (by decide) (dropWS_natToChars N _)
  have h2 : pInt (' ' :: (natToChars L ++ '\n' :: body)) =
      some (L, '\n' :: body) := by
    refine pInt_render L '\n' body (by decide) ?_
    rw [dropWS_cons_ws (by decide)]
    exact dropWS_natToChars L _
  unfold pHeader
  rw [h1]
  simp only [h2]
  rw [List.dropWhile_cons]
  simp

theorem string_mk_length (l : List Char) : (String.mk l).length = l.length := rfl

theorem writeRead_cons (k0 v0 : String) (srest : List (String × String))
    (hnd : (((k0, v0) :: srest).map Prod.fst).Nodup)
    (hgood : ∀ kv ∈ (k0, v0) :: srest, goodRecord kv)
    (hseqlen : ∀ kv ∈ srest, kv.2.length = v0.length) :
    writeReadPhylip { species := (k0, v0) :: srest, sequence_len := some v0.length } =
      .ok { species := (k0, v0) :: srest, sequence_len := some v0.length } := by
  obtain ⟨g1, g2, g3, g4, g5⟩ := hgood (k0, v0) (by simp)
  have hps : pSeq ('\n' :: phylipBody ((k0, v0) :: srest)) =
      some ((k0, v0), phylipBody srest) := by
    rw [show phylipBody ((k0, v0) :: srest) =
        phylipLine (k0, v0) ++ phylipBody srest from rfl, pSeq_cons_nl]
    exact pSeq_phylipLine k0 v0 (phylipBody srest) g1 g2 g3 g4 g5
  have hsl : seqsLoop ((phylipBody srest).length + 1) [] (phylipBody srest) =
      ([] ++ srest, []) :=
    seqsLoop_phylipBody srest ((phylipBody srest).length + 1) []
      (by omega) (fun kv hkv => hgood kv (by simp [hkv]))
  have hseqs : pSequences ('\n' :: phylipBody ((k0, v0) :: srest)) =
      some (((k0, v0), srest), []) := by
    unfold pSequences
    simp only [hps, hsl]
    simp
  have hpp : parsePhylip (String.mk
      (natToChars ((k0, v0) :: srest).length ++ ' ' ::
        (natToChars v0.length ++ '\n' :: phylipBody ((k0, v0) :: srest)))) =
      some ((((k0, v0) :: srest).length, v0.length), ((k0, v0), srest)) := by
    unfold parsePhylip
    rw [show (String.mk (natToChars ((k0, v0) :: srest).length ++ ' ' ::
        (natToChars v0.length ++ '\n' :: phylipBody ((k0, v0) :: srest)))).toList =
        natToChars ((k0, v0) :: srest).length ++ ' ' ::
        (natToChars v0.length ++ '\n' :: phylipBody ((k0, v0) :: srest)) from rfl]
    rw [pHeader_render]
    simp only [hseqs]
    rfl
  have hparse : parse (String.mk
      (natToChars ((k0, v0) :: srest).length ++ ' ' ::
        (natToChars v0.length ++ '\n' :: phylipBody ((k0, v0) :: srest)))) =
      .ok ((k0, v0) :: srest) := by
    unfold parse
    simp only [hpp, bne_self_eq_false, Bool.false_eq_true, if_false]
  have hfpo := from_parser_output_ok k0 v0 srest hnd hseqlen
  calc writeReadPhylip { species := (k0, v0) :: srest, sequence_len := some v0.length }
      = Except.bind (parse (String.mk
          (natToChars ((k0, v0) :: srest).length ++ ' ' ::
            (natToChars v0.length ++ '\n' :: phylipBody ((k0, v0) :: srest)))))
          from_parser_output := rfl
    _ = Except.bind (.ok ((k0, v0) :: srest)) from_parser_output := by rw [hparse]
    _ = .ok { species := (k0, v0) :: srest, sequence_len := some v0.length } := hfpo

theorem parse_ok_ne_nil {text : String} {recs : List (String × String)}
    (hp : parse text = .ok recs) : recs ≠ [] := by
  unfold parse at hp
  cases hpp : parsePhylip text with
  | none =>
    simp only [hpp] at hp
    exact absurd hp (by simp)
  | some x =>
    obtain ⟨⟨cnt, slen⟩, r0, rest⟩ := x
    simp only [hpp] at hp
    split at hp
    · exact absurd hp (by simp)
    · split at hp
      · exact absurd hp (by simp)
      · simp only [Except.ok.injEq] at hp
        rw [← hp]
        simp

theorem from_parser_output_cons_inv {k0 v0 : String}
    {rest : List (String × String)} {al : Alignment}
    (h : from_parser_output ((k0, v0) :: rest) = .ok al) : invariantsHold al := by
  unfold from_parser_output at h
  cases hl : fromParserOutputLoop [] none ((k0, v0) :: rest) with
  | error e =>
    simp only [hl] at h
    exact absurd h (by simp)
  | ok p =>
    obtain ⟨sp, sl⟩ := p
    simp only [hl] at h
    rw [show fromParserOutputLoop [] none ((k0, v0) :: rest) =
        fromParserOutputLoop [(k0, v0)] (some v0.length) rest by
      simp [fromParserOutputLoop, dictMem]] at hl
    rcases fromLoop_ok_inv rest [(k0, v0)] (some v0.length) sp sl hl with ⟨h1, h2, h3⟩
    rcases h3 v0.length rfl (by simp) with ⟨h4, h5⟩
    simp only [Except.ok.injEq] at h
    rw [← h]
    refine ⟨h2 (by simp), by simp [h1], v0.length, h4, h5⟩

/-- C1: the spec requires that a column list whose maximum index equals the
source length (columns [0, 7] against the length-7 dog/cat alignment) fail
with the column-out-of-range AlignmentError, but the code's guard is
site_max > source.sequence_len, so index 7 slips through and the subsequent
indexing old_sequence[7] raises a built-in IndexError instead; only a
strictly greater maximum (for example 8) reaches the domain error. -/
theorem subset_boundary_indexError :
    subsetAlignmentInit dogcat7 [0, 7] = (.error .indexError, dogcat7) ∧
    PyErr.isAlignmentError .indexError = false ∧
    subsetAlignmentInit dogcat7 [0, 8] =
      (.error (.columnOutOfRange 8 (some 7)), dogcat7) :=
  ⟨rfl, rfl, rfl⟩

/-- C2 (counterexample): the alignment with a single 100-character species
name, itself producible by the phylip grammar (sequence_name permits up to
100 characters) and validly constructed by from_parser_output, does not
round-trip: write_phylip truncates the name to 99 characters, so reading the
written text back yields an alignment that is not same_as the original. -/
theorem roundtrip_truncation_counterexample :
    parse (String.mk ('1' :: ' ' :: '1' :: '\n' ::
        (List.replicate 100 'a' ++ ' ' :: ' ' :: 'G' :: ['\n']))) =
      .ok [(longName100, "G")] ∧
    from_parser_output [(longName100, "G")] = .ok aln100 ∧
    writeReadPhylip aln100 = .ok aln99 ∧
    same_as aln99 aln100 = false :=
  ⟨rfl, rfl, rfl, rfl⟩

/-- C2 (amended): for every alignment in the tabular (phylip) format — the
only format the module as configured reads and writes — whose species names
are nonempty, at most 99 characters, and drawn from the identifier alphabet,
and whose sequences are nonempty, drawn from the residue alphabet, and of
the uniform length recorded in sequence_len, writing and reading back yields
the very same alignment, and in particular one that is same_as the
original. -/
theorem phylip_roundtrip_same_as (a : Alignment) (L : Nat)
    (hne : a.species ≠ [])
    (hnd : (a.species.map Prod.fst).Nodup)
    (hlen : a.sequence_len = some L)
    (hgood : ∀ kv ∈ a.species, goodRecord kv)
    (hseqlen : ∀ kv ∈ a.species, kv.2.length = L) :
    writeReadPhylip a = .ok a ∧ same_as a a = true := by
  refine ⟨?_, same_as_self hnd⟩
  obtain ⟨sp, sl⟩ := a
  simp only at hne hnd hlen hgood hseqlen ⊢
  subst hlen
  cases sp with
  | nil => exact absurd rfl hne
  | cons kv srest =>
    obtain ⟨k0, v0⟩ := kv
    have hv0 : v0.length = L := hseqlen (k0, v0) (by simp)
    subst hv0
    exact writeRead_cons k0 v0 srest hnd hgood
      (fun kv hkv => hseqlen kv (by simp [hkv]))

/-- C2 (amended) witness at the spec's dog/cat example. -/
theorem phylip_roundtrip_witness :
    writeReadPhylip dogcat7 = .ok dogcat7 ∧ same_as dogcat7 dogcat7 = true :=
  phylip_roundtrip_same_as dogcat7 7 (by decide) (by decide) rfl
    (by decide) (by decide)

/-- C3: projecting an alignment whose sequences all have the declared length
onto a nonempty, in-range column list keeps every species, selects exactly
the characters at the requested indices in the requested order, and sets
sequence_len to the number of requested columns. -/
theorem subset_projection_correct (source : Alignment) (columns : List Nat)
    (L : Nat) (hlen : source.sequence_len = some L)
    (hseqs : ∀ kv ∈ source.species, kv.2.length = L)
    (hne : source.species ≠ []) (hcne : columns ≠ [])
    (hrange : ∀ i ∈ columns, i < L) :
    project source columns =
      .ok { species := source.species.map (fun kv =>
              (kv.1, String.mk (columns.map (fun i => kv.2.toList.getD i ' ')))),
            sequence_len := some columns.length } := by
  obtain ⟨c0, cols, rfl⟩ : ∃ c0 cols, columns = c0 :: cols := by
    cases columns with
    | nil => exact absurd rfl hcne
    | cons c0 cols => exact ⟨c0, cols, rfl⟩
  have hmax : maxList (c0 :: cols) = some (cols.foldl Nat.max c0) := rfl
  have hmlt : cols.foldl Nat.max c0 < L :=
    foldl_max_lt cols c0 L (hrange c0 (by simp)) (fun i hi => hrange i (by simp [hi]))
  have hgt : pyGt (cols.foldl Nat.max c0) source.sequence_len = false := by
    rw [hlen]
    simp only [pyGt, decide_eq_false_iff_not, not_lt]
    omega
  have hproj := projectSpecies_in_range (c0 :: cols) L hrange source.species hseqs
  obtain ⟨⟨k0, v0⟩, srest, hsp⟩ : ∃ kv srest, source.species = kv :: srest := by
    cases hs : source.species with
    | nil => exact absurd hs hne
    | cons kv srest => exact ⟨kv, srest, rfl⟩
  unfold project subsetAlignmentInit
  simp only [hmax, hgt, Bool.false_eq_true, if_false, hproj]
  rw [hsp]
  simp only [List.map_cons, Except.ok.injEq, Alignment.mk.injEq]
  exact ⟨trivial, by simp⟩

/-- C3 witness at the spec's dog/cat example with columns [0, 1, 2]. -/
theorem subset_projection_witness :
    project dogcat7 [0, 1, 2] =
      .ok { species := [("dog", "GAT"), ("cat", "GAT")], sequence_len := some 3 } := by
  rw [subset_projection_correct dogcat7 [0, 1, 2] 7 rfl (by decide) (by decide)
    (by decide) (by decide)]
  rfl

/-- C4: when the phylip grammar succeeds and yields header metadata, parse
raises the header/count-mismatch error exactly when the declared species
count differs from the number of records, then the header/length-mismatch
error when the declared length differs from the first record's sequence
length; either error propagates through read before any Alignment is built,
and when both declared values agree the records are returned with no header
error. -/
theorem parse_header_checks (text : String) (cnt slen : Nat)
    (r0 : String × String) (rest : List (String × String))
    (h : parsePhylip text = some ((cnt, slen), (r0, rest))) :
    ((r0 :: rest).length ≠ cnt → parse text = .error .headerCountMismatch ∧
      readText text = .error .headerCountMismatch) ∧
    ((r0 :: rest).length = cnt → r0.2.length ≠ slen →
      parse text = .error .headerLengthMismatch ∧
      readText text = .error .headerLengthMismatch) ∧
    ((r0 :: rest).length = cnt → r0.2.length = slen →
      parse text = .ok (r0 :: rest)) := by
  refine ⟨?_, ?_, ?_⟩
  · intro hc
    have hb : ((r0 :: rest).length != cnt) = true := by simpa using hc
    have hp : parse text = .error .headerCountMismatch := by
      unfold parse
      simp only [h, hb, if_true]
    exact ⟨hp, by unfold readText; rw [hp]; rfl⟩
  · intro hc hl
    have hbc : ((r0 :: rest).length != cnt) = false := by simpa using hc
    have hbl : (r0.2.length != slen) = true := by simpa using hl
    have hp : parse text = .error .headerLengthMismatch := by
      unfold parse
      simp only [h, hbc, Bool.false_eq_true, if_false, hbl, if_true]
    exact ⟨hp, by unfold readText; rw [hp]; rfl⟩
  · intro hc hl
    have hbc : ((r0 :: rest).length != cnt) = false := by simpa using hc
    have hbl : (r0.2.length != slen) = false := by simpa using hl
    unfold parse
    simp only [h, hbc, hbl, Bool.false_eq_true, if_false]

/-- C4 witness: a declared count of 3 over 2 records fails with the count
mismatch, a declared length of 5 over length-4 sequences fails with the
length mismatch, and the agreeing header parses to the records. -/
theorem parse_header_checks_witness :
    parse "3 4\ndog  GATC\ncat  GATT\n" = .error .headerCountMismatch ∧
    parse "2 5\ndog  GATC\ncat  GATT\n" = .error .headerLengthMismatch ∧
    parse "2 4\ndog  GATC\ncat  GATT\n" = .ok [("dog", "GATC"), ("cat", "GATT")] :=
  ⟨((parse_header_checks "3 4\ndog  GATC\ncat  GATT\n" 3 4 ("dog", "GATC")
      [("cat", "GATT")] rfl).1 (by decide)).1,
   ((parse_header_checks "2 5\ndog  GATC\ncat  GATT\n" 2 5 ("dog", "GATC")
      [("cat", "GATT")] rfl).2.1 (by decide) (by decide)).1,
   (parse_header_checks "2 4\ndog  GATC\ncat  GATT\n" 2 4 ("dog", "GATC")
      [("cat", "GATT")] rfl).2.2 (by decide) (by decide)⟩

/-- C5 (counterexample): the record list a/G, b/GG, a/G contains a repeated
identifier, yet construction fails with the length-mismatch error at b —
raised before the duplicate of a is ever reached — not with the
duplicate-species error the claim requires. -/
theorem duplicate_preempted_counterexample :
    from_parser_output [("a", "G"), ("b", "GG"), ("a", "G")] =
      .error (.lengthMismatch "b") ∧
    from_parser_output [("a", "G"), ("b", "GG"), ("a", "G")] ≠
      .error (.duplicateSpecies "a") := by
  refine ⟨rfl, ?_⟩
  intro hcontra
  rw [show from_parser_output [("a", "G"), ("b", "GG"), ("a", "G")] =
      .error (.lengthMismatch "b") from rfl] at hcontra
  simp only [Except.error.injEq] at hcontra
  exact absurd hcontra (by decide)

/-- C5 (amended): a record list containing two records with the same
identifier never constructs successfully and never silently overwrites:
it always fails with a domain error that is duplicate-species or
length-mismatch (first conjunct); writing the list as the records before
the first repeated occurrence — (k0, v0) followed by mid, with distinct
identifiers — then the repetition (kd, vd) and anything after, the
duplicate-species error naming kd is raised whenever every record in mid
matches the first record's length, regardless of the contents vd and v0 of
the two duplicate records, whose lengths the loop never compares (second
conjunct); and otherwise the first earlier record whose length differs
triggers the length-mismatch error naming it instead (third conjunct). -/
theorem duplicate_always_fails :
    (∀ (defs : List (String × String)), ¬ (defs.map Prod.fst).Nodup →
      ∃ e, from_parser_output defs = .error e ∧
        ∃ s, e = .duplicateSpecies s ∨ e = .lengthMismatch s) ∧
    (∀ (k0 v0 kd vd : String) (mid post : List (String × String)),
      (((k0, v0) :: mid).map Prod.fst).Nodup →
      kd ∈ ((k0, v0) :: mid).map Prod.fst →
      (∀ kv ∈ mid, kv.2.length = v0.length) →
      from_parser_output ((k0, v0) :: (mid ++ (kd, vd) :: post)) =
        .error (.duplicateSpecies kd)) ∧
    (∀ (k0 v0 kb sb : String) (p1 tail : List (String × String)),
      (∀ kv ∈ p1, kv.2.length = v0.length) → sb.length ≠ v0.length →
      (((k0, v0) :: p1).map Prod.fst).Nodup →
      (∀ kv ∈ p1, kv.1 ≠ kb) → k0 ≠ kb →
      from_parser_output ((k0, v0) :: (p1 ++ (kb, sb) :: tail)) =
        .error (.lengthMismatch kb)) := by
  refine ⟨?_, ?_, ?_⟩
  · intro defs hdup
    rcases fromLoop_err_of_dup defs [] none (by simp) (by simpa using hdup)
      with ⟨e, he, s, hs⟩
    exact ⟨e, by unfold from_parser_output; simp only [he], s, hs⟩
  · intro k0 v0 kd vd mid post hnd hmem hlen
    rw [List.map_cons, List.nodup_cons] at hnd
    have hdisj : ∀ kv ∈ mid, dictMem [(k0, v0)] kv.1 = false := by
      intro kv hkv
      have : k0 ≠ kv.1 := fun he => hnd.1 (he ▸ List.mem_map.mpr ⟨kv, hkv, rfl⟩)
      simpa [dictMem] using this
    have hmem2 : dictMem ([(k0, v0)] ++ mid) kd = true := by
      rw [List.singleton_append]
      exact dictMem_true_iff.mpr (by simpa using hmem)
    have hda := fromLoop_dup_at mid [(k0, v0)] v0.length kd vd post
      hlen hdisj hnd.2 hmem2
    unfold from_parser_output
    rw [show fromParserOutputLoop [] none ((k0, v0) :: (mid ++ (kd, vd) :: post)) =
        fromParserOutputLoop [(k0, v0)] (some v0.length) (mid ++ (kd, vd) :: post) by
      simp [fromParserOutputLoop, dictMem]]
    simp only [hda]
  · intro k0 v0 kb sb p1 tail hp1 hsb hnd hne hk0b
    rw [List.map_cons, List.nodup_cons] at hnd
    have hdisj : ∀ kv ∈ p1, dictMem [(k0, v0)] kv.1 = false := by
      intro kv hkv
      have : k0 ≠ kv.1 := fun he => hnd.1 (he ▸ List.mem_map.mpr ⟨kv, hkv, rfl⟩)
      simpa [dictMem] using this
    have hkb : dictMem [(k0, v0)] kb = false := by
      simpa [dictMem] using hk0b
    have hfm := fromLoop_first_mismatch p1 [(k0, v0)] v0.length kb sb tail
      hp1 hsb hdisj hkb hne hnd.2
    unfold from_parser_output
    rw [show fromParserOutputLoop [] none ((k0, v0) :: (p1 ++ (kb, sb) :: tail)) =
        fromParserOutputLoop [(k0, v0)] (some v0.length) (p1 ++ (kb, sb) :: tail) by
      simp [fromParserOutputLoop, dictMem]]
    simp only [hfm]

/-- C5 (amended) witness: a/G then a/GG — the duplicate's own longer
sequence notwithstanding — fails with duplicateSpecies a; the same pair with
an interposed mismatching b/GG fails with lengthMismatch b instead; and the
general conjunct classifies the a/GG duplicate's failure. -/
theorem duplicate_always_fails_witness :
    (∃ e, from_parser_output [("a", "G"), ("a", "GG")] = .error e ∧
      ∃ s, e = PyErr.duplicateSpecies s ∨ e = PyErr.lengthMismatch s) ∧
    from_parser_output [("a", "G"), ("a", "GG")] =
      .error (.duplicateSpecies "a") ∧
    from_parser_output [("a", "G"), ("b", "GG"), ("a", "GG")] =
      .error (.lengthMismatch "b") :=
  ⟨duplicate_always_fails.1 [("a", "G"), ("a", "GG")] (by decide),
   duplicate_always_fails.2.1 "a" "G" "a" "GG" [] [] (by decide) (by decide)
     (by decide),
   duplicate_always_fails.2.2 "a" "G" "b" "GG" [] [("a", "GG")] (by decide)
     (by decide) (by decide) (by decide) (by decide)⟩

/-- C6: with distinct identifiers, the first record's sequence length is the
reference; the first subsequent record whose length differs triggers the
length-mismatch error naming it, and when every length agrees construction
succeeds with sequence_len equal to the common length. -/
theorem length_uniformity (k0 s0 : String) (rest : List (String × String))
    (hnd : (((k0, s0) :: rest).map Prod.fst).Nodup) :
    (∀ pre kb sb post, rest = pre ++ (kb, sb) :: post →
      (∀ kv ∈ pre, kv.2.length = s0.length) → sb.length ≠ s0.length →
      from_parser_output ((k0, s0) :: rest) = .error (.lengthMismatch kb)) ∧
    ((∀ kv ∈ rest, kv.2.length = s0.length) →
      from_parser_output ((k0, s0) :: rest) =
        .ok { species := (k0, s0) :: rest, sequence_len := some s0.length }) := by
  constructor
  · intro pre kb sb post hrest hpre hsb
    subst hrest
    rw [List.map_cons, List.nodup_cons] at hnd
    have hk0 := hnd.1
    have hrestnd := hnd.2
    rw [List.map_append, List.map_cons, List.nodup_append] at hrestnd
    obtain ⟨hprend, hkbpost, hdisj0⟩ := hrestnd
    have hdisj : ∀ kv ∈ pre, dictMem [(k0, s0)] kv.1 = false := by
      intro kv hkv
      have : k0 ≠ kv.1 := by
        intro he
        exact hk0 (by rw [List.map_append]
                      exact List.mem_append.mpr
                        (Or.inl (he ▸ List.mem_map.mpr ⟨kv, hkv, rfl⟩)))
      simpa [dictMem] using this
    have hkb : dictMem [(k0, s0)] kb = false := by
      have : k0 ≠ kb := by
        intro he
        refine hk0 (by rw [List.map_append]
                       exact List.mem_append.mpr (Or.inr (by simp [← he])))
      simpa [dictMem] using this
    have hne2 : ∀ kv ∈ pre, kv.1 ≠ kb := by
      intro kv hkv he
      exact hdisj0 (List.mem_map.mpr ⟨kv, hkv, rfl⟩) (by simp [he])
    have hfm := fromLoop_first_mismatch pre [(k0, s0)] s0.length kb sb post
      hpre hsb hdisj hkb hne2 hprend
    unfold from_parser_output
    rw [show fromParserOutputLoop [] none ((k0, s0) :: (pre ++ (kb, sb) :: post)) =
        fromParserOutputLoop [(k0, s0)] (some s0.length) (pre ++ (kb, sb) :: post) by
      simp [fromParserOutputLoop, dictMem]]
    simp only [hfm]
  · intro hlen
    exact from_parser_output_ok k0 s0 rest hnd hlen

/-- C6 witness: a/G then b/GG fails naming b; a/G then b/T succeeds with
sequence_len 1. -/
theorem length_uniformity_witness :
    from_parser_output [("a", "G"), ("b", "GG")] = .error (.lengthMismatch "b") ∧
    from_parser_output [("a", "G"), ("b", "T")] =
      .ok { species := [("a", "G"), ("b", "T")], sequence_len := some 1 } :=
  ⟨(length_uniformity "a" "G" [("b", "GG")] (by decide)).1 [] "b" "GG" [] rfl
      (by simp) (by decide),
   (length_uniformity "a" "G" [("b", "T")] (by decide)).2 (by decide)⟩

/-- C7: every alignment that exists after a successful construction — from
the parser's records via from_parser_output, or by column projection from a
source whose identifiers are unique — has unique species identifiers, a
non-empty species dict, and sequences all of length exactly sequence_len. -/
theorem constructed_invariants :
    (∀ (text : String) (recs : List (String × String)) (al : Alignment),
      parse text = .ok recs → from_parser_output recs = .ok al →
      invariantsHold al) ∧
    (∀ (source : Alignment) (columns : List Nat) (al : Alignment),
      (source.species.map Prod.fst).Nodup → project source columns = .ok al →
      invariantsHold al) := by
  constructor
  · intro text recs al hp hf
    have hne : recs ≠ [] := parse_ok_ne_nil hp
    cases recs with
    | nil => exact absurd rfl hne
    | cons kv rest =>
      obtain ⟨k0, v0⟩ := kv
      exact from_parser_output_cons_inv hf
  · intro source columns al hnd h
    exact project_ok_inv hnd h

/-- C7 witness: the alignment read from the spec's example file and the
dog/cat projection onto columns [0, 1, 2] both satisfy the invariants. -/
theorem constructed_invariants_witness :
    invariantsHold { species := [("dog", "GATC"), ("cat", "GATT")],
                     sequence_len := some 4 } ∧
    invariantsHold { species := [("dog", "GAT"), ("cat", "GAT")],
                     sequence_len := some 3 } :=
  ⟨constructed_invariants.1 "2 4\ndog  GATC\ncat  GATT\n"
      [("dog", "GATC"), ("cat", "GATT")] _ rfl rfl,
   constructed_invariants.2 dogcat7 [0, 1, 2] _ (by decide) rfl⟩

/-- C8: SubsetAlignment construction returns the source object exactly as it
was, on every path — success, the out-of-range error, the empty-subset
error, and the two built-in exceptions. -/
theorem projection_preserves_source (source : Alignment) (columns : List Nat) :
    (subsetAlignmentInit source columns).2 = source := by
  unfold subsetAlignmentInit
  cases maxList columns with
  | none => rfl
  | some m =>
    cases hp : pyGt m source.sequence_len with
    | true => simp [hp]
    | false =>
      simp only [hp, Bool.false_eq_true, if_false]
      cases projectSpecies columns source.species with
      | none => rfl
      | some sp =>
        cases sp with
        | nil => rfl
        | cons kw rest =>
          obtain ⟨a, b⟩ := kw
          rfl

/-- C9: when from_parser_output fails, the receiver's species and
sequence_len are untouched: the new mapping and length live in locals and
are assigned only after every record validates. -/
theorem failed_build_leaves_fields (self : Alignment)
    (defs : List (String × String)) (e : PyErr)
    (h : (fromParserOutputSt self defs).1 = .error e) :
    (fromParserOutputSt self defs).2 = self := by
  unfold fromParserOutputSt at h ⊢
  cases hl : fromParserOutputLoop [] none defs with
  | error e2 => simp only [hl]
  | ok p =>
    simp only [hl] at h
    exact absurd h (by simp)

/-- C9 witness: a duplicate-species failure leaves a prior x/Y alignment
unchanged. -/
theorem failed_build_leaves_fields_witness :
    (fromParserOutputSt { species := [("x", "Y")], sequence_len := some 1 }
      [("a", "G"), ("a", "GG")]).2 =
      { species := [("x", "Y")], sequence_len := some 1 } :=
  failed_build_leaves_fields { species := [("x", "Y")], sequence_len := some 1 }
    [("a", "G"), ("a", "GG")] (.duplicateSpecies "a") rfl

/-- C10: projecting onto an empty column list never succeeds and never
raises the domain AlignmentError: max([]) raises a built-in ValueError
first, leaving the source untouched, so projection is only well-defined for
nonempty column lists. -/
theorem empty_columns_valueError (source : Alignment) :
    subsetAlignmentInit source [] = (.error .valueError, source) ∧
    PyErr.isAlignmentError .valueError = false :=
  ⟨rfl, rfl⟩

end Partfinder
